import Mathlib

/-!
Shallow embedding of the mini-editor's text-buffer core (src/main.rs):
the `Buffer` data model (`Vec<Vec<char>>`), its mutating operations
(`write_char`, `newline`, `backspace` and their helpers), the serialization
used by `save_to_file`, the cursor navigator `get_next_cursor`, and the
edit-command dispatch `apply_command`.

Rust strings are modelled as `List Char`; `usize` as `Nat` (the source never
subtracts below zero on the paths modelled, and every subtraction is guarded
exactly as in the source). Operations that can panic in Rust
(`self.data[i]` out of bounds in `slurp_next_line`) are modelled as
`Option`-valued, `none` standing for the panic.
-/

namespace MiniEditor

/-- ChangeSet enum `BufferChanges` from src/main.rs (lines 37-42). -/
inductive BufferChanges where
  | Char : Nat × Nat → BufferChanges
  | Lines : List Nat → BufferChanges
  | Buffer : BufferChanges
  | None : BufferChanges
deriving DecidableEq, Repr

/-- Cursor struct from src/main.rs (lines 44-47): column `x`, row `y`. -/
structure Cursor where
  x : Nat
  y : Nat
deriving DecidableEq, Repr

/-- Buffer struct from src/main.rs (lines 204-206): `data: Vec<Vec<char>>`. -/
structure Buffer where
  data : List (List Char)
deriving DecidableEq, Repr

/-- Model of Rust `str::split_inclusive('\n')`: chunks of the string, each
chunk ending with `'\n'` except possibly the last. -/
def splitInclusiveNl : List Char → List (List Char)
  | [] => []
  | c :: cs =>
    if c = '\n' then ['\n'] :: splitInclusiveNl cs
    else
      match splitInclusiveNl cs with
      | [] => [[c]]
      | chunk :: rest => (c :: chunk) :: rest

/-- Model of the per-line trim done by Rust `str::lines()`: strip one
trailing `'\n'`, and then one trailing `'\r'` only if the `'\n'` was
stripped. -/
def lineTrim (l : List Char) : List Char :=
  if l.getLast? = some '\n' then
    let l2 := l.dropLast
    if l2.getLast? = some '\r' then l2.dropLast else l2
  else l

/-- Model of Rust `str::lines()`: split inclusively on `'\n'`, then trim each
chunk's terminator. An empty string yields an empty list of lines. -/
def rustLines (s : List Char) : List (List Char) :=
  (splitInclusiveNl s).map lineTrim

/-- Buffer::from_string (src/main.rs lines 213-218): one buffer line per
`str::lines()` item. -/
def Buffer.from_string (s : List Char) : Buffer :=
  ⟨rustLines s⟩

/-- Buffer::count_lines (src/main.rs lines 298-300). -/
def Buffer.count_lines (b : Buffer) : Nat :=
  b.data.length

/-- Buffer::get_line (src/main.rs lines 302-308): the row's characters, or
the empty string for an out-of-range row. -/
def Buffer.get_line (b : Buffer) (line_number : Nat) : List Char :=
  b.data.getD line_number []

/-- Buffer::get_line_length (src/main.rs lines 252-262): 0 for an
out-of-range row, both via the early return and via the `get` fallback. -/
def Buffer.get_line_length (b : Buffer) (line_number : Nat) : Nat :=
  if b.data.length ≤ line_number then 0
  else
    match b.data[line_number]? with
    | some line => line.length
    | none => 0

/-- Buffer::fill_lines (src/main.rs lines 314-318). The loop
`while line_number + 1 > count || count == 0 { push empty }` appends empty
lines until the length reaches at least `line_number + 1` (the `count == 0`
disjunct is subsumed since `line_number + 1 ≥ 1`), i.e. it appends exactly
`line_number + 1 - length` empty lines. -/
def Buffer.fill_lines (b : Buffer) (line_number : Nat) : Buffer :=
  ⟨b.data ++ List.replicate (line_number + 1 - b.data.length) []⟩

/-- Buffer::insert_line (src/main.rs lines 310-312): `Vec::insert` of a fresh
empty line at `line_number`. (`Vec::insert` panics for an index past the end;
both call sites insert at an index that is at most the length, where
`List.insertIdx` agrees with it.) -/
def Buffer.insert_line (b : Buffer) (line_number : Nat) : Buffer :=
  ⟨List.insertIdx line_number [] b.data⟩

/-- Buffer::get_line_data_from_offset (src/main.rs lines 320-329): the tail
of row `line_number` from `offset` on, when the row exists and `offset` is at
most its length; `none` otherwise. -/
def Buffer.get_line_data_from_offset (b : Buffer) (line_number offset : Nat) :
    Option (List Char) :=
  match b.data[line_number]? with
  | some line => if offset ≤ line.length then some (line.drop offset) else none
  | none => none

/-- Buffer::truncate_line (src/main.rs lines 331-334): truncate row
`line_number` to `offset` characters. (The source unwraps `get_mut`; the only
call site has just filled the buffer so the row exists, where `List.set`
agrees with it.) -/
def Buffer.truncate_line (b : Buffer) (line_number offset : Nat) : Buffer :=
  ⟨b.data.set line_number ((b.data.getD line_number []).take offset)⟩

/-- Buffer::write_char (src/main.rs lines 220-233): fill lines up to row `y`,
pad the row with spaces while `x > line.len()`, then insert at `x` (or push
when `x` equals the new length), reporting `Lines([y])`. -/
def Buffer.write_char (b : Buffer) (cursor : Cursor) (character : Char) :
    Buffer × BufferChanges :=
  let x := cursor.x
  let y := cursor.y
  let b1 := b.fill_lines y
  let line := b1.data.getD y []
  let line := line ++ List.replicate (x - line.length) ' '
  let line :=
    if x < line.length then List.insertIdx x character line
    else line ++ [character]
  (⟨b1.data.set y line⟩, BufferChanges.Lines [y])

/-- Buffer::newline (src/main.rs lines 235-250): fill lines up to row `y`,
insert an empty line at `y + 1`, then move the tail of row `y` from column
`x` into the new line, reporting `Buffer`; when `x` is past the row's length
the split is skipped and `None` is reported (but the inserted line stays). -/
def Buffer.newline (b : Buffer) (cursor : Cursor) : Buffer × BufferChanges :=
  let x := cursor.x
  let y := cursor.y
  let b1 := b.fill_lines y
  let b2 := b1.insert_line (y + 1)
  match b2.get_line_data_from_offset y x with
  | some rest =>
    let b3 := b2.truncate_line y x
    let new_line := (b3.data.getD (y + 1) []) ++ rest
    (⟨b3.data.set (y + 1) new_line⟩, BufferChanges.Buffer)
  | none => (b2, BufferChanges.None)

/-- Buffer::remove_line (src/main.rs lines 264-268): remove row
`line_number` when it exists, otherwise do nothing. -/
def Buffer.remove_line (b : Buffer) (line_number : Nat) : Buffer :=
  if b.count_lines > line_number then ⟨b.data.eraseIdx line_number⟩ else b

/-- Buffer::slurp_next_line (src/main.rs lines 270-274): append the content
of row `line_number + 1` (empty when missing) to row `line_number`. The
source indexes `self.data[line_number]` directly, which panics when that row
is missing — modelled as `none`. -/
def Buffer.slurp_next_line (b : Buffer) (line_number : Nat) : Option Buffer :=
  let next_line_content := b.get_line (line_number + 1)
  match b.data[line_number]? with
  | some first_line =>
    some ⟨b.data.set line_number (first_line ++ next_line_content)⟩
  | none => none

/-- Buffer::backspace (src/main.rs lines 276-296): two independent guards.
If row `y` exists and `0 < x ≤ len + 1 - 1` (source guard
`line.len() + 1 > x && x > 0`), remove the character at `x - 1` and set the
result to `Buffer`. Independently, if `x == 0 && y > 0`, slurp row `y` into
row `y - 1` and remove row `y`, setting the result to `Buffer`. Otherwise the
result stays `None`. `none` models the panic inside `slurp_next_line`. -/
def Buffer.backspace (b : Buffer) (cursor : Cursor) :
    Option (Buffer × BufferChanges) :=
  let x := cursor.x
  let y := cursor.y
  let step1 : Buffer × BufferChanges :=
    match b.data[y]? with
    | some line =>
      if line.length + 1 > x ∧ x > 0 then
        (⟨b.data.set y (line.eraseIdx (x - 1))⟩, BufferChanges.Buffer)
      else (b, BufferChanges.None)
    | none => (b, BufferChanges.None)
  if x = 0 ∧ y > 0 then
    match step1.1.slurp_next_line (y - 1) with
    | some b2 => some (b2.remove_line y, BufferChanges.Buffer)
    | none => none
  else some step1

/-- Serialization used by save_to_file (src/main.rs lines 337-349): every
line followed by one `'\n'`, flattened. -/
def serialize (b : Buffer) : List Char :=
  (b.data.map (fun line => line ++ ['\n'])).flatten

/-- Key events consumed by the editor loop; only the constructors that reach
`get_next_cursor` or `apply_command` are modelled, with `Other` standing for
any remaining key. -/
inductive Key where
  | Up : Key
  | Down : Key
  | Left : Key
  | Right : Key
  | Char : Char → Key
  | Enter : Key
  | Backspace : Key
  | Other : Key
deriving DecidableEq, Repr

/-- Validity gate of get_next_cursor (src/main.rs lines 374-385). -/
def valid_movement (x y : Nat) (buffer : Buffer) (direction : Key) : Bool :=
  match direction with
  | Key.Up => decide (y > 0)
  | Key.Down => decide (y + 1 < buffer.count_lines)
  | Key.Left => decide (x > 0 ∨ y > 0)
  | Key.Right =>
    decide (x < buffer.get_line_length y ∨ y < buffer.count_lines)
  | _ => false

/-- get_next_cursor (src/main.rs lines 371-426). When the gate fails the
current cursor is returned unchanged. The source's final `unreachable!()`
arm is never taken because the gate already rejected every non-arrow key;
here that arm returns the current cursor, which agrees with the early
return. In the `Left` fall-through arm `x > 0` holds (otherwise the gate
forces `y > 0` and the wrap arm is taken), so `x - 1` never underflows. -/
def get_next_cursor (current_cursor : Cursor) (buffer : Buffer)
    (direction : Key) : Cursor :=
  let x := current_cursor.x
  let y := current_cursor.y
  if ¬ valid_movement x y buffer direction then ⟨x, y⟩
  else
    match direction with
    | Key.Left =>
      if y > 0 ∧ x = 0 then ⟨buffer.get_line_length (y - 1), y - 1⟩
      else ⟨x - 1, y⟩
    | Key.Right =>
      if y + 1 < buffer.count_lines ∧ x = buffer.get_line_length y then
        ⟨0, y + 1⟩
      else ⟨x + 1, y⟩
    | Key.Up =>
      if buffer.get_line_length (y - 1) < x then
        ⟨buffer.get_line_length (y - 1), y - 1⟩
      else ⟨x, y - 1⟩
    | Key.Down =>
      if buffer.get_line_length (y + 1) < x then
        ⟨buffer.get_line_length (y + 1), y + 1⟩
      else ⟨x, y + 1⟩
    | _ => ⟨x, y⟩

/-- apply_command (src/main.rs lines 429-460): maps a key to the mutated
buffer, the reported changes and the new cursor. For `Backspace` the
previous row's length is captured from the buffer before the mutation.
`none` propagates the panic from `backspace`. -/
def apply_command (key : Key) (buffer : Buffer) (cursor : Cursor) :
    Option (Buffer × BufferChanges × Cursor) :=
  match key with
  | Key.Char character =>
    let r := buffer.write_char cursor character
    some (r.1, r.2, ⟨cursor.x + 1, cursor.y⟩)
  | Key.Enter =>
    let r := buffer.newline cursor
    some (r.1, r.2, ⟨0, cursor.y + 1⟩)
  | Key.Backspace =>
    let previous_line_length :=
      if cursor.y > 0 then buffer.get_line_length (cursor.y - 1) else 0
    match buffer.backspace cursor with
    | some r =>
      let new_cursor : Cursor :=
        if cursor.x > 0 then ⟨cursor.x - 1, cursor.y⟩
        else if cursor.y > 0 then ⟨previous_line_length, cursor.y - 1⟩
        else ⟨cursor.x, cursor.y⟩
      some (r.1, r.2, new_cursor)
    | none => none
  | _ => some (buffer, BufferChanges.None, ⟨cursor.x, cursor.y⟩)

/-- Invariant from the spec's data model: no buffer line contains an
embedded line-terminator character. -/
def no_terminator (b : Buffer) : Prop :=
  ∀ line ∈ b.data, '\n' ∉ line

/-! Helper lemmas about `splitInclusiveNl` and `lineTrim`. -/

theorem splitInclusiveNl_no_nl {s : List Char} (hne : s ≠ []) (hnl : '\n' ∉ s) :
    splitInclusiveNl s = [s] := by
  induction s with
  | nil => exact absurd rfl hne
  | cons c cs ih =>
    have hc : ¬ c = '\n' := fun h => hnl (h ▸ List.mem_cons_self c cs)
    by_cases hcs : cs = []
    · subst hcs
      simp [splitInclusiveNl, hc]
    · have hrec := ih hcs (fun h => hnl (List.mem_cons_of_mem _ h))
      simp [splitInclusiveNl, hc, hrec]

theorem lineTrim_of_getLast?_ne {l : List Char} (h : ¬ l.getLast? = some '\n') :
    lineTrim l = l := by
  simp [lineTrim, h]

theorem mem_dropLast_or_last {α : Type} {a : α} {l : List α} (h : a ∈ l) :
    a ∈ l.dropLast ∨ l.getLast? = some a := by
  have hne : l ≠ [] := List.ne_nil_of_mem h
  have hsplit := List.dropLast_append_getLast hne
  rw [← hsplit] at h
  rcases List.mem_append.mp h with h1 | h1
  · exact Or.inl h1
  · right
    rw [List.getLast?_eq_getLast l hne]
    simpa using (List.mem_singleton.mp h1).symm

/-- C1 (counterexample): loading the empty string yields a zero-line buffer,
not one empty line. -/
theorem c1_load_empty_counterexample :
    (Buffer.from_string []).count_lines = 0 ∧
      (Buffer.from_string []).count_lines ≠ 1 := by
  decide

/-- C1 (amended): for every nonempty string with no line-terminator, loading
it yields a buffer with exactly one line whose text equals the input; the
empty string instead yields a zero-line buffer. -/
theorem c1_load_no_terminator (s : List Char) (hne : s ≠ []) (hnl : '\n' ∉ s) :
    Buffer.from_string s = ⟨[s]⟩ := by
  have h1 := splitInclusiveNl_no_nl hne hnl
  have h2 : ¬ s.getLast? = some '\n' := by
    intro h
    exact hnl (List.mem_of_getLast?_eq_some h)
  simp [Buffer.from_string, rustLines, h1, lineTrim_of_getLast?_ne h2]

/-- Witness for C1's amended theorem at the concrete string "ab". -/
theorem c1_load_no_terminator_witness :
    (['a', 'b'] : List Char) ≠ [] ∧ '\n' ∉ (['a', 'b'] : List Char) ∧
      Buffer.from_string ['a', 'b'] = ⟨[['a', 'b']]⟩ :=
  ⟨by decide, by decide, c1_load_no_terminator ['a', 'b'] (by decide) (by decide)⟩

/-- C2: on the one-line buffer "ab", a split at cursor (5, 0) is past the
row's length, so `newline` reports `None`; but the buffer is not left
unchanged — the empty line inserted at index 1 before the offset check
stays, growing the buffer to two lines. -/
theorem c2_newline_none_changes_buffer :
    (Buffer.mk [['a', 'b']]).newline ⟨5, 0⟩ =
        (⟨[['a', 'b'], []]⟩, BufferChanges.None) ∧
      (⟨[['a', 'b'], []]⟩ : Buffer) ≠ ⟨[['a', 'b']]⟩ := by
  decide

/-- C3: on a zero-line buffer, `backspace` at cursor (0, 1) takes the merge
branch and `slurp_next_line` indexes a missing row, which panics in the
source (modelled as `none`) instead of resolving to a no-op. -/
theorem c3_backspace_out_of_bounds_panics :
    (Buffer.mk []).backspace ⟨0, 1⟩ = none := by
  decide

/-- C9: on the empty buffer, `get_next_cursor` from (0, 0) returns (0, 0)
unchanged for Up, Down, Left and Right; and in general, whenever the
validity gate fails, the current cursor is returned unchanged. -/
theorem c9_navigator_noop :
    (get_next_cursor ⟨0, 0⟩ ⟨[]⟩ Key.Up = ⟨0, 0⟩ ∧
      get_next_cursor ⟨0, 0⟩ ⟨[]⟩ Key.Down = ⟨0, 0⟩ ∧
      get_next_cursor ⟨0, 0⟩ ⟨[]⟩ Key.Left = ⟨0, 0⟩ ∧
      get_next_cursor ⟨0, 0⟩ ⟨[]⟩ Key.Right = ⟨0, 0⟩) ∧
    ∀ (c : Cursor) (b : Buffer) (d : Key),
      valid_movement c.x c.y b d = false → get_next_cursor c b d = c := by
  refine ⟨by decide, ?_⟩
  intro c b d h
  cases c
  simp [get_next_cursor, h]

/-- Witness for C9's gate clause: Down on the empty buffer from (0, 0). -/
theorem c9_navigator_noop_witness :
    valid_movement (Cursor.mk 0 0).x (Cursor.mk 0 0).y ⟨[]⟩ Key.Down = false ∧
      get_next_cursor ⟨0, 0⟩ ⟨[]⟩ Key.Down = ⟨0, 0⟩ :=
  ⟨by decide, c9_navigator_noop.2 ⟨0, 0⟩ ⟨[]⟩ Key.Down (by decide)⟩

/-- C6 (counterexample): `write_char` of 'h' at (0, 0) into the empty buffer
changes the line count (0 to 1, via fill-to) yet reports `Lines([0])`, not
`Whole`. -/
theorem c6_counterexample :
    ((Buffer.mk []).write_char ⟨0, 0⟩ 'h').1.count_lines ≠
        (Buffer.mk []).count_lines ∧
      ((Buffer.mk []).write_char ⟨0, 0⟩ 'h').2 ≠ BufferChanges.Buffer := by
  decide

/-- C6 (amended): `backspace` reports `Whole` whenever a successful call
changes the line count, and `newline` reports `Whole` whenever it does not
take its defensive `None` branch; but `insert_char` can change the line
count through fill-to while reporting only `Lines({y})`. -/
theorem c6_structural_whole :
    (∀ (b : Buffer) (cursor : Cursor) (r : Buffer × BufferChanges),
        b.backspace cursor = some r → r.1.count_lines ≠ b.count_lines →
        r.2 = BufferChanges.Buffer) ∧
    ∀ (b : Buffer) (cursor : Cursor),
      (b.newline cursor).2 ≠ BufferChanges.None →
      (b.newline cursor).2 = BufferChanges.Buffer := by
  constructor
  · intro b cursor r hsome hcount
    unfold Buffer.backspace at hsome
    by_cases hxy : cursor.x = 0 ∧ cursor.y > 0
    · rw [if_pos hxy] at hsome
      rcases hslurp : Buffer.slurp_next_line _ (cursor.y - 1) with _ | b2
      · rw [hslurp] at hsome
        exact absurd hsome (by simp)
      · rw [hslurp] at hsome
        simp only [Option.some.injEq] at hsome
        rw [← hsome]
    · rw [if_neg hxy] at hsome
      simp only [Option.some.injEq] at hsome
      exfalso
      apply hcount
      rw [← hsome]
      rcases hline : b.data[cursor.y]? with _ | line
      · simp [hline, Buffer.count_lines]
      · simp only [hline]
        split
        · simp [Buffer.count_lines]
        · simp [Buffer.count_lines]
  · intro b cursor hne
    unfold Buffer.newline at hne ⊢
    rcases hrest : ((b.fill_lines cursor.y).insert_line
        (cursor.y + 1)).get_line_data_from_offset cursor.y cursor.x
      with _ | rest
    · simp only [hrest] at hne
      exact absurd rfl hne
    · simp only [hrest]

/-- Witness for C6's amended theorem: a merging backspace on a two-line
buffer changes the line count and reports `Whole`, and a valid split on a
one-line buffer reports `Whole`. -/
theorem c6_structural_whole_witness :
    (Buffer.mk [['a'], ['b']]).backspace ⟨0, 1⟩ =
        some (⟨[['a', 'b']]⟩, BufferChanges.Buffer) ∧
      (1 : Nat) ≠ 2 ∧
      (⟨[['a', 'b']]⟩ : Buffer).count_lines ≠
        (Buffer.mk [['a'], ['b']]).count_lines ∧
      BufferChanges.Buffer = BufferChanges.Buffer ∧
      ((Buffer.mk [['a']]).newline ⟨0, 0⟩).2 ≠ BufferChanges.None ∧
      ((Buffer.mk [['a']]).newline ⟨0, 0⟩).2 = BufferChanges.Buffer := by
  refine ⟨by decide, by decide, by decide, ?_, by decide, ?_⟩
  · exact c6_structural_whole.1 (Buffer.mk [['a'], ['b']]) ⟨0, 1⟩
      (⟨[['a', 'b']]⟩, BufferChanges.Buffer) (by decide) (by decide)
  · exact c6_structural_whole.2 (Buffer.mk [['a']]) ⟨0, 0⟩ (by decide)

/-- C10: the Backspace dispatch captures the previous row's length from the
buffer before the mutation, and whenever the call returns, the new cursor is
(x-1, y) for x > 0, (captured previous length, y-1) for x = 0 and y > 0, and
the unchanged cursor for x = 0 and y = 0. -/
theorem c10_backspace_dispatch_cursor (b : Buffer) (x y : Nat)
    (r : Buffer × BufferChanges × Cursor)
    (h : apply_command Key.Backspace b ⟨x, y⟩ = some r) :
    r.2.2 = if x > 0 then ⟨x - 1, y⟩
      else if y > 0 then ⟨b.get_line_length (y - 1), y - 1⟩
      else ⟨x, y⟩ := by
  unfold apply_command at h
  rcases hbs : b.backspace ⟨x, y⟩ with _ | r'
  · rw [hbs] at h
    exact absurd h (by simp)
  · rw [hbs] at h
    simp only [Option.some.injEq] at h
    rw [← h]
    by_cases hx : x > 0
    · simp [hx]
    · by_cases hy : y > 0
      · simp [hx, hy]
      · simp [hx, hy]

/-- Witness for C10 at a merging backspace on a two-line buffer. -/
theorem c10_backspace_dispatch_cursor_witness :
    apply_command Key.Backspace (Buffer.mk [['a'], ['b']]) ⟨0, 1⟩ =
        some (⟨[['a', 'b']]⟩, BufferChanges.Buffer, ⟨1, 0⟩) ∧
      (⟨1, 0⟩ : Cursor) =
        (if 0 > 0 then (⟨0 - 1, 1⟩ : Cursor)
         else if 1 > 0 then
           ⟨(Buffer.mk [['a'], ['b']]).get_line_length (1 - 1), 1 - 1⟩
         else ⟨0, 1⟩) :=
  ⟨by decide,
    c10_backspace_dispatch_cursor (Buffer.mk [['a'], ['b']]) 0 1
      (⟨[['a', 'b']]⟩, BufferChanges.Buffer, ⟨1, 0⟩) (by decide)⟩

/-! Helper lemmas about `get_line` under `fill_lines` and `List.set`. -/

theorem fill_lines_get_line (b : Buffer) (n y : Nat) :
    (b.fill_lines n).get_line y = b.get_line y := by
  simp only [Buffer.fill_lines, Buffer.get_line, List.getD_eq_getElem?_getD,
    List.getElem?_append, List.getElem?_replicate]
  rcases lt_or_ge y b.data.length with h | h
  · simp [h]
  · rw [if_neg (not_lt.mpr h), List.getElem?_eq_none h]
    split <;> rfl

theorem get_line_set_self {l : List (List Char)} {y : Nat} {v : List Char}
    (h : y < l.length) : (Buffer.mk (l.set y v)).get_line y = v := by
  simp [Buffer.get_line, List.getD_eq_getElem?_getD, List.getElem?_set_self h]

theorem get_line_set_ne {l : List (List Char)} {y i : Nat} {v : List Char}
    (h : y ≠ i) :
    (Buffer.mk (l.set y v)).get_line i = (Buffer.mk l).get_line i := by
  simp [Buffer.get_line, List.getD_eq_getElem?_getD, List.getElem?_set_ne h]

theorem write_char_eq (b : Buffer) (x y : Nat) (ch : Char) :
    b.write_char ⟨x, y⟩ ch =
      (⟨(b.fill_lines y).data.set y
          (List.insertIdx x ch
            (b.get_line y ++
              List.replicate (x - (b.get_line y).length) ' '))⟩,
        BufferChanges.Lines [y]) := by
  have hget : (b.fill_lines y).data.getD y [] = b.get_line y :=
    fill_lines_get_line b y y
  simp only [Buffer.write_char, hget]
  set line := b.get_line y ++ List.replicate (x - (b.get_line y).length) ' '
    with hl
  by_cases hx : x < line.length
  · rw [if_pos hx]
  · rw [if_neg hx]
    have hlen : line.length =
        (b.get_line y).length + (x - (b.get_line y).length) := by
      simp [hl]
    have hxe : x = line.length := by omega
    rw [hxe, List.insertIdx_length_self]

/-- C7: `write_char` at cursor (x, y) fills lines up to row y, pads row y
with spaces up to column x, inserts the character at index x shifting the
remainder right, leaves every other row unchanged, and reports `Lines([y])`;
in particular inserting 'x' at (10, 10) into an empty buffer yields 11 lines
with row 10 equal to 10 spaces followed by "x". -/
theorem c7_write_char_spec (b : Buffer) (x y : Nat) (ch : Char) :
    (b.write_char ⟨x, y⟩ ch).2 = BufferChanges.Lines [y] ∧
    (b.write_char ⟨x, y⟩ ch).1.count_lines = max b.count_lines (y + 1) ∧
    (b.write_char ⟨x, y⟩ ch).1.get_line y =
      List.insertIdx x ch
        (b.get_line y ++ List.replicate (x - (b.get_line y).length) ' ') ∧
    (∀ i, i ≠ y → (b.write_char ⟨x, y⟩ ch).1.get_line i = b.get_line i) ∧
    ((Buffer.mk []).write_char ⟨10, 10⟩ 'x').1.count_lines = 11 ∧
    ((Buffer.mk []).write_char ⟨10, 10⟩ 'x').1.get_line 10 =
      List.replicate 10 ' ' ++ ['x'] := by
  refine ⟨?_, ?_, ?_, ?_, by decide, by decide⟩
  · rw [write_char_eq]
  · rw [write_char_eq]
    simp only [Buffer.count_lines, List.length_set, Buffer.fill_lines,
      List.length_append, List.length_replicate]
    omega
  · rw [write_char_eq]
    apply get_line_set_self
    simp only [Buffer.fill_lines, List.length_append, List.length_replicate]
    omega
  · intro i hi
    rw [write_char_eq]
    rw [get_line_set_ne (fun h => hi h.symm)]
    exact fill_lines_get_line b y i

/-- Witness for C7's frame clause at a concrete buffer and rows. -/
theorem c7_write_char_spec_witness :
    ((Buffer.mk [['a'], ['b']]).write_char ⟨0, 0⟩ 'h').1.get_line 1 =
        (Buffer.mk [['a'], ['b']]).get_line 1 ∧
      (1 : Nat) ≠ 0 :=
  ⟨(c7_write_char_spec (Buffer.mk [['a'], ['b']]) 0 0 'h').2.2.2.1 1
      (by decide),
    by decide⟩

theorem getElem?_eq_get_line {b : Buffer} {y : Nat} (h : y < b.count_lines) :
    b.data[y]? = some (b.get_line y) := by
  have h' : y < b.data.length := h
  rw [List.getElem?_eq_getElem h']
  simp [Buffer.get_line, List.getD_eq_getElem?_getD, List.getElem?_eq_getElem h']

theorem get_line_length_eq {b : Buffer} {y : Nat} (h : y < b.count_lines) :
    b.get_line_length y = (b.get_line y).length := by
  have h' : ¬ b.data.length ≤ y := not_le.mpr h
  unfold Buffer.get_line_length
  rw [if_neg h', getElem?_eq_get_line h]

/-- C8: for a cursor whose row exists and whose column is at most that row's
length, `backspace` removes the character at index x-1 with the line count
unchanged and reports `Whole` when x > 0; merges row y into the end of row
y-1 and deletes row y, reporting `Whole`, when x = 0 and y > 0; and is a
no-op reporting `None` when x = 0 and y = 0. -/
theorem c8_backspace_in_range (b : Buffer) (x y : Nat)
    (hy : y < b.count_lines) (hx : x ≤ b.get_line_length y) :
    (x > 0 →
      b.backspace ⟨x, y⟩ =
          some (⟨b.data.set y ((b.get_line y).eraseIdx (x - 1))⟩,
            BufferChanges.Buffer) ∧
        (⟨b.data.set y ((b.get_line y).eraseIdx (x - 1))⟩ :
            Buffer).count_lines = b.count_lines) ∧
    (x = 0 → y > 0 →
      b.backspace ⟨x, y⟩ =
        some (⟨(b.data.set (y - 1)
              (b.get_line (y - 1) ++ b.get_line y)).eraseIdx y⟩,
          BufferChanges.Buffer)) ∧
    (x = 0 → y = 0 → b.backspace ⟨x, y⟩ = some (b, BufferChanges.None)) := by
  have hget := getElem?_eq_get_line hy
  have hlen := get_line_length_eq hy
  rw [hlen] at hx
  refine ⟨?_, ?_, ?_⟩
  · intro hxpos
    constructor
    · unfold Buffer.backspace
      simp only [hget]
      rw [if_pos (⟨by omega, hxpos⟩ : (b.get_line y).length + 1 > x ∧ x > 0)]
      rw [if_neg
        (fun (hc : x = 0 ∧ y > 0) => Nat.lt_irrefl 0 (hc.1 ▸ hxpos))]
    · simp [Buffer.count_lines, List.length_set]
  · intro hx0 hypos
    subst hx0
    have hy1 : y - 1 < b.count_lines := by omega
    have hget1 := getElem?_eq_get_line hy1
    have hyy : y - 1 + 1 = y := by omega
    unfold Buffer.backspace
    simp only [hget]
    rw [if_pos (⟨trivial, hypos⟩ : True ∧ y > 0)]
    rw [if_neg
      (fun (hc : (b.get_line y).length + 1 > 0 ∧ 0 > 0) =>
        Nat.lt_irrefl 0 hc.2)]
    unfold Buffer.slurp_next_line
    simp only [hyy, hget1]
    unfold Buffer.remove_line
    rw [if_pos (by simpa [Buffer.count_lines] using hy)]
  · intro hx0 hy0
    subst hx0
    subst hy0
    unfold Buffer.backspace
    simp only [hget]
    rw [if_neg
      (fun (hc : True ∧ 0 > 0) => Nat.lt_irrefl 0 hc.2)]
    rw [if_neg
      (fun (hc : (b.get_line 0).length + 1 > 0 ∧ 0 > 0) =>
        Nat.lt_irrefl 0 hc.2)]

/-- Witness for C8 at the two-line buffer ["ab", "c"] with cursor (0, 1):
the rows merge into one line "abc". -/
theorem c8_backspace_in_range_witness :
    1 < (Buffer.mk [['a', 'b'], ['c']]).count_lines ∧
      0 ≤ (Buffer.mk [['a', 'b'], ['c']]).get_line_length 1 ∧
      (Buffer.mk [['a', 'b'], ['c']]).backspace ⟨0, 1⟩ =
        some (⟨[['a', 'b', 'c']]⟩, BufferChanges.Buffer) := by
  refine ⟨by decide, by decide, ?_⟩
  have h := (c8_backspace_in_range (Buffer.mk [['a', 'b'], ['c']]) 0 1
    (by decide) (by decide)).2.1 rfl (by decide)
  exact h.trans (by decide)

/-! Helper lemmas for the no-embedded-terminator invariant. -/

theorem splitInclusiveNl_dropLast (s : List Char) :
    ∀ chunk ∈ splitInclusiveNl s, '\n' ∉ chunk.dropLast := by
  induction s with
  | nil =>
    intro chunk h
    simp [splitInclusiveNl] at h
  | cons c cs ih =>
    intro chunk hmem
    by_cases hc : c = '\n'
    · subst hc
      rw [show splitInclusiveNl ('\n' :: cs) = ['\n'] :: splitInclusiveNl cs
        from by simp [splitInclusiveNl]] at hmem
      rcases List.mem_cons.mp hmem with h | h
      · subst h
        simp
      · exact ih chunk h
    · rcases hsplit : splitInclusiveNl cs with _ | ⟨ch, rest⟩
      · rw [show splitInclusiveNl (c :: cs) = [[c]] from by
          simp [splitInclusiveNl, hc, hsplit]] at hmem
        rw [List.mem_singleton.mp hmem]
        simp
      · rw [show splitInclusiveNl (c :: cs) = (c :: ch) :: rest from by
          simp [splitInclusiveNl, hc, hsplit]] at hmem
        rcases List.mem_cons.mp hmem with h | h
        · subst h
          cases ch with
          | nil => simp
          | cons d ds =>
            intro hmem2
            rcases List.mem_cons.mp hmem2 with h2 | h2
            · exact hc h2.symm
            · exact ih (d :: ds) (by rw [hsplit]; exact List.mem_cons_self _ _)
                h2
        · exact ih chunk (by rw [hsplit]; exact List.mem_cons_of_mem _ h)

theorem no_nl_lineTrim {chunk : List Char} (h : '\n' ∉ chunk.dropLast) :
    '\n' ∉ lineTrim chunk := by
  by_cases h1 : chunk.getLast? = some '\n'
  · by_cases h2 : chunk.dropLast.getLast? = some '\r'
    · simp only [lineTrim, h1, h2, if_true]
      intro hm
      exact h (List.mem_of_mem_dropLast hm)
    · simp only [lineTrim, h1, h2, if_true, if_false]
      exact h
  · simp only [lineTrim, h1, if_false]
    intro hm
    rcases mem_dropLast_or_last hm with h2 | h2
    · exact h h2
    · exact h1 h2

theorem from_string_no_terminator (s : List Char) :
    no_terminator (Buffer.from_string s) := by
  intro line hmem
  simp only [Buffer.from_string, rustLines, List.mem_map] at hmem
  obtain ⟨chunk, hchunk, rfl⟩ := hmem
  exact no_nl_lineTrim (splitInclusiveNl_dropLast s chunk hchunk)

theorem no_terminator_get_line {b : Buffer} (h : no_terminator b) (y : Nat) :
    '\n' ∉ b.get_line y := by
  unfold Buffer.get_line
  rw [List.getD_eq_getElem?_getD]
  rcases hx : b.data[y]? with _ | line
  · simp
  · simp only [Option.getD_some]
    exact h line (List.getElem?_mem hx)

theorem no_terminator_fill {b : Buffer} (h : no_terminator b) (n : Nat) :
    no_terminator (b.fill_lines n) := by
  intro line hmem
  simp only [Buffer.fill_lines] at hmem
  rcases List.mem_append.mp hmem with h1 | h1
  · exact h line h1
  · rw [(List.mem_replicate.mp h1).2]
    simp

theorem no_terminator_set {l : List (List Char)} {y : Nat} {v : List Char}
    (h : no_terminator ⟨l⟩) (hv : '\n' ∉ v) : no_terminator ⟨l.set y v⟩ := by
  intro line hmem
  rcases List.mem_or_eq_of_mem_set hmem with h1 | h1
  · exact h line h1
  · rw [h1]
    exact hv

theorem no_terminator_insert_line {l : List (List Char)} {n : Nat}
    (h : no_terminator ⟨l⟩) (hn : n ≤ l.length) :
    no_terminator ⟨List.insertIdx n [] l⟩ := by
  intro line hmem
  rcases (List.mem_insertIdx hn).mp hmem with h1 | h1
  · rw [h1]
    simp
  · exact h line h1

theorem no_nl_of_get_line_data_from_offset {b : Buffer} {y x : Nat}
    {rest : List Char} (hb : no_terminator b)
    (h : b.get_line_data_from_offset y x = some rest) : '\n' ∉ rest := by
  unfold Buffer.get_line_data_from_offset at h
  rcases hg : b.data[y]? with _ | line
  · simp only [hg] at h
    exact absurd h (by simp)
  · simp only [hg] at h
    by_cases hx : x ≤ line.length
    · rw [if_pos hx] at h
      simp only [Option.some.injEq] at h
      subst h
      intro hm
      exact hb line (List.getElem?_mem hg) (List.drop_subset _ _ hm)
    · rw [if_neg hx] at h
      exact absurd h (by simp)

theorem no_terminator_slurp {b : Buffer} {n : Nat} {b2 : Buffer}
    (hb : no_terminator b) (h : b.slurp_next_line n = some b2) :
    no_terminator b2 := by
  unfold Buffer.slurp_next_line at h
  rcases hg : b.data[n]? with _ | first
  · rw [hg] at h
    exact absurd h (by simp)
  · rw [hg] at h
    simp only [Option.some.injEq] at h
    subst h
    apply no_terminator_set hb
    intro hm
    rcases List.mem_append.mp hm with h1 | h1
    · exact hb first (List.getElem?_mem hg) h1
    · exact no_terminator_get_line hb (n + 1) h1

theorem no_terminator_remove_line {b : Buffer} (hb : no_terminator b)
    (n : Nat) : no_terminator (b.remove_line n) := by
  unfold Buffer.remove_line
  split
  · intro line hmem
    exact hb line (List.eraseIdx_subset _ _ hmem)
  · exact hb

/-- C4 (counterexample): `write_char` accepts the line-terminator itself as
input, so inserting '\n' at (0, 0) into the empty buffer leaves a line that
contains an embedded terminator. -/
theorem c4_counterexample :
    '\n' ∈ ((Buffer.mk []).write_char ⟨0, 0⟩ '\n').1.get_line 0 := by
  decide

/-- C4 (amended): the no-embedded-terminator invariant is established by
load and preserved by `split_line`, by `backspace` whenever it returns, and
by `insert_char` for every non-terminator input character (inserting the
terminator character itself breaks it). -/
theorem c4_no_terminator_invariant :
    (∀ s : List Char, no_terminator (Buffer.from_string s)) ∧
    (∀ (b : Buffer) (cursor : Cursor) (ch : Char), ch ≠ '\n' →
      no_terminator b → no_terminator (b.write_char cursor ch).1) ∧
    (∀ (b : Buffer) (cursor : Cursor), no_terminator b →
      no_terminator (b.newline cursor).1) ∧
    (∀ (b : Buffer) (cursor : Cursor) (r : Buffer × BufferChanges),
      no_terminator b → b.backspace cursor = some r →
      no_terminator r.1) := by
  refine ⟨from_string_no_terminator, ?_, ?_, ?_⟩
  · intro b cursor ch hch hb
    cases cursor with
    | mk x y =>
      rw [write_char_eq]
      apply no_terminator_set (no_terminator_fill hb y)
      intro hm
      have hxle : x ≤ (b.get_line y ++
          List.replicate (x - (b.get_line y).length) ' ').length := by
        simp only [List.length_append, List.length_replicate]
        omega
      rcases (List.mem_insertIdx hxle).mp hm with h1 | h1
      · exact hch h1.symm
      · rcases List.mem_append.mp h1 with h2 | h2
        · exact no_terminator_get_line hb y h2
        · exact absurd (List.mem_replicate.mp h2).2 (by decide)
  · intro b cursor hb
    have hb2 : no_terminator
        ((b.fill_lines cursor.y).insert_line (cursor.y + 1)) := by
      apply no_terminator_insert_line (no_terminator_fill hb cursor.y)
      simp only [Buffer.fill_lines, List.length_append, List.length_replicate]
      omega
    unfold Buffer.newline
    rcases hrest : ((b.fill_lines cursor.y).insert_line
        (cursor.y + 1)).get_line_data_from_offset cursor.y cursor.x
      with _ | rest
    · simp only [hrest]
      exact hb2
    · simp only [hrest]
      have hb3 : no_terminator
          (((b.fill_lines cursor.y).insert_line
            (cursor.y + 1)).truncate_line cursor.y cursor.x) := by
        apply no_terminator_set hb2
        intro hm
        exact no_terminator_get_line hb2 cursor.y
          (List.take_subset _ _ hm)
      apply no_terminator_set hb3
      intro hm
      rcases List.mem_append.mp hm with h1 | h1
      · exact no_terminator_get_line hb3 (cursor.y + 1) h1
      · exact no_nl_of_get_line_data_from_offset hb2 hrest h1
  · intro b cursor r hb hsome
    unfold Buffer.backspace at hsome
    rcases hg : b.data[cursor.y]? with _ | line
    · simp only [hg] at hsome
      by_cases hxy : cursor.x = 0 ∧ cursor.y > 0
      · rw [if_pos hxy] at hsome
        rcases hs : b.slurp_next_line (cursor.y - 1) with _ | b2
        · rw [hs] at hsome
          exact absurd hsome (by simp)
        · rw [hs] at hsome
          simp only [Option.some.injEq] at hsome
          subst hsome
          exact no_terminator_remove_line (no_terminator_slurp hb hs) _
      · rw [if_neg hxy] at hsome
        simp only [Option.some.injEq] at hsome
        subst hsome
        exact hb
    · simp only [hg] at hsome
      by_cases hguard : line.length + 1 > cursor.x ∧ cursor.x > 0
      · rw [if_pos hguard] at hsome
        by_cases hxy : cursor.x = 0 ∧ cursor.y > 0
        · exfalso
          omega
        · rw [if_neg hxy] at hsome
          simp only [Option.some.injEq] at hsome
          subst hsome
          exact no_terminator_set hb
            (fun hm => hb line (List.getElem?_mem hg)
              (List.eraseIdx_subset _ _ hm))
      · rw [if_neg hguard] at hsome
        by_cases hxy : cursor.x = 0 ∧ cursor.y > 0
        · rw [if_pos hxy] at hsome
          rcases hs : b.slurp_next_line (cursor.y - 1) with _ | b2
          · rw [hs] at hsome
            exact absurd hsome (by simp)
          · rw [hs] at hsome
            simp only [Option.some.injEq] at hsome
            subst hsome
            exact no_terminator_remove_line (no_terminator_slurp hb hs) _
        · rw [if_neg hxy] at hsome
          simp only [Option.some.injEq] at hsome
          subst hsome
          exact hb

/-- Witness for C4's preservation clauses at the one-line buffer ["a"]. -/
theorem c4_no_terminator_invariant_witness :
    ('h' ≠ '\n') ∧ no_terminator (Buffer.mk [['a']]) ∧
      no_terminator ((Buffer.mk [['a']]).write_char ⟨0, 0⟩ 'h').1 := by
  have hnt : no_terminator (Buffer.mk [['a']]) := by
    intro line hmem
    rw [List.mem_singleton.mp hmem]
    decide
  exact ⟨by decide, hnt,
    c4_no_terminator_invariant.2.1 (Buffer.mk [['a']]) ⟨0, 0⟩ 'h'
      (by decide) hnt⟩

/-! Helper lemmas for the serialize/load round trip. -/

theorem flatten_splitInclusiveNl (s : List Char) :
    (splitInclusiveNl s).flatten = s := by
  induction s with
  | nil => rfl
  | cons c cs ih =>
    by_cases hc : c = '\n'
    · subst hc
      rw [show splitInclusiveNl ('\n' :: cs) = ['\n'] :: splitInclusiveNl cs
        from by simp [splitInclusiveNl]]
      simp [ih]
    · rcases hsplit : splitInclusiveNl cs with _ | ⟨chunk, rest⟩
      · have hcs : cs = [] := by
          have hfl := ih
          rw [hsplit] at hfl
          simpa using hfl.symm
        subst hcs
        simp [splitInclusiveNl, hc]
      · rw [show splitInclusiveNl (c :: cs) = (c :: chunk) :: rest from by
          simp [splitInclusiveNl, hc, hsplit]]
        rw [hsplit] at ih
        simp only [List.flatten_cons] at ih ⊢
        rw [List.cons_append, ih]

theorem splitInclusiveNl_ne_nil (s : List Char) :
    ∀ chunk ∈ splitInclusiveNl s, chunk ≠ [] := by
  induction s with
  | nil =>
    intro chunk h
    simp [splitInclusiveNl] at h
  | cons c cs ih =>
    intro chunk hmem
    by_cases hc : c = '\n'
    · subst hc
      rw [show splitInclusiveNl ('\n' :: cs) = ['\n'] :: splitInclusiveNl cs
        from by simp [splitInclusiveNl]] at hmem
      rcases List.mem_cons.mp hmem with h | h
      · subst h
        simp
      · exact ih chunk h
    · rcases hsplit : splitInclusiveNl cs with _ | ⟨ch, rest⟩
      · rw [show splitInclusiveNl (c :: cs) = [[c]] from by
          simp [splitInclusiveNl, hc, hsplit]] at hmem
        rw [List.mem_singleton.mp hmem]
        simp
      · rw [show splitInclusiveNl (c :: cs) = (c :: ch) :: rest from by
          simp [splitInclusiveNl, hc, hsplit]] at hmem
        rcases List.mem_cons.mp hmem with h | h
        · subst h
          simp
        · exact ih chunk (by rw [hsplit]; exact List.mem_cons_of_mem _ h)

theorem suffix_cr_nl {l : List Char} (h1 : l.getLast? = some '\n')
    (h2 : l.dropLast.getLast? = some '\r') : ['\r', '\n'] <:+ l := by
  have hne : l ≠ [] := by
    rintro rfl
    simp at h1
  have hde : l.dropLast ≠ [] := by
    intro h
    rw [h] at h2
    simp at h2
  have hl : l.dropLast ++ [l.getLast hne] = l := List.dropLast_append_getLast hne
  have hlast : l.getLast hne = '\n' := by
    have he := List.getLast?_eq_getLast l hne
    rw [h1] at he
    exact (Option.some.inj he).symm
  have hd : l.dropLast.dropLast ++ [l.dropLast.getLast hde] = l.dropLast :=
    List.dropLast_append_getLast hde
  have hdlast : l.dropLast.getLast hde = '\r' := by
    have he := List.getLast?_eq_getLast l.dropLast hde
    rw [h2] at he
    exact (Option.some.inj he).symm
  have e1 : l = l.dropLast ++ ['\n'] := by
    conv_lhs => rw [← hl]
    rw [hlast]
  have e2 : l.dropLast = l.dropLast.dropLast ++ ['\r'] := by
    conv_lhs => rw [← hd]
    rw [hdlast]
  refine ⟨l.dropLast.dropLast, ?_⟩
  conv_rhs => rw [e1]
  conv_rhs => rw [e2]
  simp

theorem lineTrim_no_crnl {l : List Char} (h : ¬ ['\r', '\n'] <:+ l) :
    lineTrim l = if l.getLast? = some '\n' then l.dropLast else l := by
  by_cases h1 : l.getLast? = some '\n'
  · have h2 : ¬ l.dropLast.getLast? = some '\r' :=
      fun hc => h (suffix_cr_nl h1 hc)
    simp [lineTrim, h1, h2]
  · simp [lineTrim, h1]

theorem flatten_trim_append {s : List Char} (hne : s ≠ [])
    (hinf : ¬ ['\r', '\n'] <:+: s) (hlast : ¬ s.getLast? = some '\n') :
    ((splitInclusiveNl s).map
        (fun chunk => lineTrim chunk ++ ['\n'])).flatten = s ++ ['\n'] := by
  induction s with
  | nil => exact absurd rfl hne
  | cons c cs ih =>
    by_cases hc : c = '\n'
    · subst hc
      have hcs : cs ≠ [] := by
        rintro rfl
        exact hlast rfl
      have hinf' : ¬ ['\r', '\n'] <:+: cs :=
        fun h => hinf (h.trans (List.suffix_cons '\n' cs).isInfix)
      have hlast' : ¬ cs.getLast? = some '\n' := by
        cases cs with
        | nil => exact absurd rfl hcs
        | cons d ds =>
          intro h
          exact hlast (by rw [List.getLast?_cons_cons]; exact h)
      have ihcs := ih hcs hinf' hlast'
      rw [show splitInclusiveNl ('\n' :: cs) = ['\n'] :: splitInclusiveNl cs
        from by simp [splitInclusiveNl]]
      simp only [List.map_cons, List.flatten_cons, ihcs]
      rw [show lineTrim ['\n'] = [] from by decide]
      simp
    · rcases hsplit : splitInclusiveNl cs with _ | ⟨chunk, rest⟩
      · have hcs : cs = [] := by
          have hfl := flatten_splitInclusiveNl cs
          rw [hsplit] at hfl
          simpa using hfl.symm
        subst hcs
        rw [show splitInclusiveNl [c] = [[c]] from by
          simp [splitInclusiveNl, hc]]
        have htrim : lineTrim [c] = [c] := by
          apply lineTrim_of_getLast?_ne
          intro h
          rw [show ([c] : List Char).getLast? = some c from rfl] at h
          exact hc (Option.some.inj h)
        simp [htrim]
      · have hcs : cs ≠ [] := by
          rintro rfl
          simp [splitInclusiveNl] at hsplit
        have hinf' : ¬ ['\r', '\n'] <:+: cs :=
          fun h => hinf (h.trans (List.suffix_cons c cs).isInfix)
        have hlast' : ¬ cs.getLast? = some '\n' := by
          cases cs with
          | nil => exact absurd rfl hcs
          | cons d ds =>
            intro h
            exact hlast (by rw [List.getLast?_cons_cons]; exact h)
        have ihcs := ih hcs hinf' hlast'
        rw [hsplit] at ihcs
        have hchunk_ne : chunk ≠ [] :=
          splitInclusiveNl_ne_nil cs chunk
            (by rw [hsplit]; exact List.mem_cons_self _ _)
        have hfl := flatten_splitInclusiveNl cs
        rw [hsplit] at hfl
        simp only [List.flatten_cons] at hfl
        have hpre : (c :: chunk) <+: (c :: cs) := by
          refine ⟨rest.flatten, ?_⟩
          rw [List.cons_append, hfl]
        have hnc : ¬ ['\r', '\n'] <:+ (c :: chunk) :=
          fun h => hinf (h.isInfix.trans hpre.isInfix)
        have hnchunk : ¬ ['\r', '\n'] <:+ chunk := by
          intro h
          apply hinf
          have h2 : ['\r', '\n'] <:+ (c :: chunk) :=
            h.trans (List.suffix_cons c chunk)
          exact h2.isInfix.trans hpre.isInfix
        have hkey : lineTrim (c :: chunk) = c :: lineTrim chunk := by
          have h1 : (c :: chunk).getLast? = chunk.getLast? := by
            cases chunk with
            | nil => exact absurd rfl hchunk_ne
            | cons d ds => exact List.getLast?_cons_cons
          rw [lineTrim_no_crnl hnc, lineTrim_no_crnl hnchunk, h1]
          by_cases hlc : chunk.getLast? = some '\n'
          · rw [if_pos hlc, if_pos hlc]
            cases chunk with
            | nil => exact absurd rfl hchunk_ne
            | cons d ds => rfl
          · rw [if_neg hlc, if_neg hlc]
        rw [show splitInclusiveNl (c :: cs) = (c :: chunk) :: rest from by
          simp [splitInclusiveNl, hc, hsplit]]
        simp only [List.map_cons, List.flatten_cons] at ihcs ⊢
        rw [hkey]
        simp only [List.cons_append]
        rw [ihcs]

/-- C5 (counterexample): the round trip fails at two concrete inputs with no
trailing line-terminator. The empty string loads to a zero-line buffer,
which serializes back to the empty string, not to a single terminator; and
the nonempty string "a\r\nb" loads with its carriage-return-line-feed
sequence normalized away, so it serializes to "a\nb\n", not to "a\r\nb\n". -/
theorem c5_counterexample :
    (serialize (Buffer.from_string []) = [] ∧
      serialize (Buffer.from_string []) ≠ [] ++ ['\n']) ∧
    (serialize (Buffer.from_string ['a', '\r', '\n', 'b']) =
        ['a', '\n', 'b', '\n'] ∧
      serialize (Buffer.from_string ['a', '\r', '\n', 'b']) ≠
        ['a', '\r', '\n', 'b'] ++ ['\n']) := by
  decide

/-- C5 (amended): for every nonempty string with no
carriage-return-line-feed sequence and no trailing line feed, serializing
the loaded buffer returns the string with one terminator appended after the
last line; the empty string instead serializes back to the empty string,
and a carriage-return-line-feed sequence is normalized to a lone line feed
(a carriage return not followed by a line feed is preserved and covered by
the theorem). -/
theorem c5_serialize_load (s : List Char) (hne : s ≠ [])
    (hinf : ¬ ['\r', '\n'] <:+: s) (hlast : ¬ s.getLast? = some '\n') :
    serialize (Buffer.from_string s) = s ++ ['\n'] := by
  have h := flatten_trim_append hne hinf hlast
  unfold serialize Buffer.from_string rustLines
  rw [List.map_map]
  exact h

/-- Witness for C5 at the string "a\rb\nc", which has an internal terminator
and a lone carriage return. -/
theorem c5_serialize_load_witness :
    (['a', '\r', 'b', '\n', 'c'] : List Char) ≠ [] ∧
      ¬ (['\r', '\n'] <:+: (['a', '\r', 'b', '\n', 'c'] : List Char)) ∧
      ¬ (['a', '\r', 'b', '\n', 'c'] : List Char).getLast? = some '\n' ∧
      serialize (Buffer.from_string ['a', '\r', 'b', '\n', 'c']) =
        ['a', '\r', 'b', '\n', 'c'] ++ ['\n'] :=
  ⟨by decide, by decide, by decide,
    c5_serialize_load ['a', '\r', 'b', '\n', 'c'] (by decide) (by decide)
      (by decide)⟩

end MiniEditor
